import Mathlib

/-!
Shallow embedding of the Shamir secret-sharing core (`sss_core.py`) and of the
pixel codec / image reconstruction routines (`image_utils.py`) of the
pixel-based image encryption repository, with proofs of the specification's
claims about them.

Python integers are modelled as `Int` (or `Nat` where every value involved is
non-negative); Python's `%` on a positive modulus agrees with `Int.emod` /
`Nat.mod`, and `//` agrees with `Int.ediv` / `Nat.div` on the operands that
occur.  `raise ValueError` is modelled as `Except.error`.
-/

/-- The prime modulus of the finite field (`PRIME = 257` in `sss_core.py`). -/
def PRIME : Nat := 257

/-- The inner `extended_gcd` of `mod_inverse` in `sss_core.py`: returns
`(g, x, y)` with `g = gcd a b` and `a*x + b*y = g`.  Every call site in the
repository passes non-negative integers (the first argument is always a value
already reduced `% prime`), so the embedding uses `Nat` arguments, on which
Python's `%` and `//` agree with `Nat.mod` and `Nat.div`. -/
def extended_gcd (a b : Nat) : Nat × Int × Int :=
  if a = 0 then (b, 0, 1)
  else
    let r := extended_gcd (b % a) a
    (r.1, r.2.2 - (b / a) * r.2.1, r.2.1)
termination_by a
decreasing_by exact Nat.mod_lt _ (Nat.pos_of_ne_zero (by assumption))

/-- `mod_inverse num mod` from `sss_core.py`: modular multiplicative inverse via
the extended Euclidean algorithm; raises `ValueError` (modelled as
`Except.error`) when `gcd num mod ≠ 1`. -/
def mod_inverse (num mod : Nat) : Except String Nat :=
  let r := extended_gcd num mod
  if r.1 ≠ 1 then .error "Modular inverse does not exist"
  else .ok ((r.2.1 % (mod : Int) + mod) % mod).toNat

/-- `evaluate_polynomial coefficients x prime` from `sss_core.py`: Horner
evaluation, folding over the reversed coefficient list with every intermediate
result reduced `% prime`. -/
def evaluate_polynomial (coefficients : List Nat) (x prime : Nat) : Nat :=
  coefficients.reverse.foldl (fun result coefficient => (result * x + coefficient) % prime) 0

/-- `split_secret` from `sss_core.py`.  The `threshold - 1` random coefficients
drawn by `random.randint(1, prime - 1)` are supplied explicitly as the list
`rnd`; theorems about `split_secret` quantify over every `rnd` whose length is
`threshold - 1` and whose entries lie in `[1, prime - 1]`, i.e. over every
sequence of draws the library can produce. -/
def split_secret (secret threshold num_shares : Nat) (rnd : List Nat)
    (prime : Nat := PRIME) : Except String (List (Nat × Nat)) :=
  if threshold > num_shares then
    .error "Threshold cannot be greater than the number of shares"
  else if ¬ (secret < prime) then
    .error "Secret must be in range"
  else
    let coefficients := secret :: rnd
    .ok ((List.range num_shares).map fun i =>
      (i + 1, evaluate_polynomial coefficients (i + 1) prime))

/-- The inner `for j, x_j in enumerate([x for x, _ in shares])` loop of
`lagrange_interpolation` in `sss_core.py`: starting from
`numerator = denominator = 1`, for every index `j ≠ i` multiply the numerator
by `(0 - x_j)` and the denominator by `(x_i - x_j)`, reducing `% prime` at each
step. -/
def lagrange_numden (xs : List Int) (i : Nat) (x_i : Int) (prime : Nat) : Int × Int :=
  xs.enum.foldl
    (fun nd jx =>
      if i ≠ jx.1 then
        ((nd.1 * (0 - jx.2)) % (prime : Int), (nd.2 * (x_i - jx.2)) % (prime : Int))
      else nd)
    (1, 1)

/-- One iteration of the outer `for i, (x_i, y_i) in enumerate(shares)` loop of
`lagrange_interpolation` in `sss_core.py`: compute the numerator and
denominator for index `i`, invert the denominator (`mod_inverse` may raise,
modelled by `Except`), and add `y_i * lagrange_basis` to the accumulator
`% prime`. -/
def lagrange_step (xs : List Int) (prime : Nat) (secret : Int)
    (ixy : Nat × (Int × Int)) : Except String Int :=
  let nd := lagrange_numden xs ixy.1 ixy.2.1 prime
  match mod_inverse nd.2.toNat prime with
  | .error e => .error e
  | .ok inv =>
      .ok ((secret + ixy.2.2 * ((nd.1 * (inv : Int)) % (prime : Int))) % (prime : Int))

/-- `lagrange_interpolation` from `sss_core.py`: reconstruct the y-intercept of
the polynomial through `shares`.  For each share `(x_i, y_i)` the numerator and
denominator of the Lagrange basis at `x = 0` are accumulated by
`lagrange_numden`; `mod_inverse` may raise (propagated through `Except`), and
the contributions are summed `% prime` by `lagrange_step`. -/
def lagrange_interpolation (shares : List (Int × Int)) (prime : Nat := PRIME) :
    Except String Int :=
  if shares = [] then .error "No shares provided"
  else
    shares.enum.foldlM (lagrange_step (shares.map Prod.fst) prime) 0

/-- `recover_secret` from `sss_core.py`: delegates to `lagrange_interpolation`. -/
def recover_secret (shares : List (Int × Int)) (prime : Nat := PRIME) : Except String Int :=
  lagrange_interpolation shares prime

/-- The per-pixel body of `create_preview_image` in `image_utils.py`: a share
value triple `(r, g, b)` (each in `[0, 256]`) becomes the stored byte triple
plus the alpha marker.  Values `256` are stored as `255` with the marker
recording which channels were `256`; the default marker is `254`.  The branch
for "R and G were 256" is transcribed verbatim from the source, which tests
`marker_array[y, x, 0] == 0` (the R flag again) instead of the B flag. -/
def encode_pixel (r g b : Nat) : Nat × Nat × Nat × Nat :=
  let r_is_256 : Nat := if r = 256 then 1 else 0
  let g_is_256 : Nat := if g = 256 then 1 else 0
  let b_is_256 : Nat := if b = 256 then 1 else 0
  let r_val := if r = 256 then 255 else r % 256
  let g_val := if g = 256 then 255 else g % 256
  let b_val := if b = 256 then 255 else b % 256
  let alpha : Nat :=
    if r_is_256 = 0 ∧ g_is_256 = 0 ∧ b_is_256 = 0 then 254
    else if r_is_256 = 1 ∧ g_is_256 = 0 ∧ b_is_256 = 0 then 255
    else if r_is_256 = 0 ∧ g_is_256 = 1 ∧ b_is_256 = 0 then 253
    else if r_is_256 = 0 ∧ g_is_256 = 0 ∧ b_is_256 = 1 then 252
    else if r_is_256 = 1 ∧ g_is_256 = 1 ∧ r_is_256 = 0 then 251
    else if r_is_256 = 1 ∧ g_is_256 = 0 ∧ b_is_256 = 1 then 250
    else if r_is_256 = 0 ∧ g_is_256 = 1 ∧ b_is_256 = 1 then 249
    else if r_is_256 = 1 ∧ g_is_256 = 1 ∧ b_is_256 = 1 then 248
    else 254
  (r_val, g_val, b_val, alpha)

/-- The per-pixel decoding step of `shares_to_image` in `image_utils.py`:
restore the share value triple from a stored RGBA pixel, turning a stored `255`
back into `256` in exactly the channels named by the alpha marker. -/
def decode_pixel (r g b alpha : Nat) : Nat × Nat × Nat :=
  if alpha = 255 then ((if r = 255 then 256 else r), g, b)
  else if alpha = 253 then (r, (if g = 255 then 256 else g), b)
  else if alpha = 252 then (r, g, (if b = 255 then 256 else b))
  else if alpha = 251 then ((if r = 255 then 256 else r), (if g = 255 then 256 else g), b)
  else if alpha = 250 then ((if r = 255 then 256 else r), g, (if b = 255 then 256 else b))
  else if alpha = 249 then (r, (if g = 255 then 256 else g), (if b = 255 then 256 else b))
  else if alpha = 248 then
    ((if r = 255 then 256 else r), (if g = 255 then 256 else g), (if b = 255 then 256 else b))
  else (r, g, b)

/-- The clamp applied by `shares_to_image` to each successfully recombined
channel value before it is written to the output image:
`min(255, value % 256)`. -/
def clamp_channel (value : Int) : Int :=
  min 255 (value % 256)

/-- The decoding pass of `shares_to_image`: every RGBA pixel of every supplied
share image is decoded back to a share value triple via `decode_pixel`. -/
def decode_share_data (shares : List (Int × List (Nat × Nat × Nat × Nat))) :
    List (Int × List (Nat × Nat × Nat)) :=
  shares.map fun s => (s.1, s.2.map fun px => decode_pixel px.1 px.2.1 px.2.2.1 px.2.2.2)

/-- The share-gathering step of the reconstruction loop of `shares_to_image`:
for pixel position `pixel_idx`, collect `(idx, pixel triple)` from every share
whose pixel list is long enough (`if pixel_idx < len(pixels)` in the source). -/
def gather_pixel (share_data : List (Int × List (Nat × Nat × Nat))) (pixel_idx : Nat) :
    List (Int × (Nat × Nat × Nat)) :=
  share_data.filterMap fun s =>
    match s.2.get? pixel_idx with
    | some rgb => some (s.1, rgb)
    | none => none

/-- The per-pixel `r_shares`, `g_shares`, `b_shares` lists built by the
reconstruction loop of `shares_to_image` from the gathered `(idx, (r, g, b))`
pairs of one pixel position. -/
def channel_shares (pixelShares : List (Int × (Nat × Nat × Nat))) :
    List (Int × Int) × List (Int × Int) × List (Int × Int) :=
  (pixelShares.map fun s => (s.1, (s.2.1 : Int)),
   pixelShares.map fun s => (s.1, (s.2.2.1 : Int)),
   pixelShares.map fun s => (s.1, (s.2.2.2 : Int)))

/-- The `try/except` body of the reconstruction loop of `shares_to_image`: the
three channels of one pixel are recombined independently via `recover_secret`
and clamped; if any of the three recoveries raises, the pixel is written as
black `(0, 0, 0)`. -/
def reconstruct_pixel (pixelShares : List (Int × (Nat × Nat × Nat))) : Nat × Nat × Nat :=
  match recover_secret (channel_shares pixelShares).1 PRIME,
      recover_secret (channel_shares pixelShares).2.1 PRIME,
      recover_secret (channel_shares pixelShares).2.2 PRIME with
  | .ok r, .ok g, .ok b =>
      ((clamp_channel r).toNat, (clamp_channel g).toNat, (clamp_channel b).toNat)
  | _, _, _ => (0, 0, 0)

/-- `shares_to_image` from `image_utils.py`, over decoded pixel grids: input is
the list of `(index, RGBA pixel rows flattened row-major)` pairs together with
the dimensions of the first share image; output is the flattened reconstructed
image.  The function first rejects an empty share list
(`if not shares: raise ValueError`), then decodes every share image and
reconstructs every pixel position independently. -/
def shares_to_image (shares : List (Int × List (Nat × Nat × Nat × Nat)))
    (height width : Nat) : Except String (List (Nat × Nat × Nat)) :=
  if shares = [] then .error "No shares provided"
  else
    let share_data := decode_share_data shares
    .ok ((List.range (height * width)).map fun pixel_idx =>
      reconstruct_pixel (gather_pixel share_data pixel_idx))

/-- The progress reports issued by `image_to_shares` in `image_utils.py` when a
progress callback is supplied: the pixel loop counts processed pixels and
reports `processed / total` (modelled exactly in `ℚ`; Python computes the same
ratio in floating point) after every 100th pixel, and a final `1.0` is always
reported after the loop. -/
def image_to_shares_progress (height width : Nat) : List ℚ :=
  let total := height * width
  let final := (List.range total).foldl
    (fun (acc : Nat × List ℚ) _ =>
      let processed := acc.1 + 1
      if processed % 100 = 0 then (processed, acc.2 ++ [(processed : ℚ) / (total : ℚ)])
      else (processed, acc.2))
    ((0 : Nat), ([] : List ℚ))
  final.2 ++ [1]

/-! ### Helper lemmas about the extended Euclidean algorithm and `mod_inverse` -/

theorem extended_gcd_gcd (a : Nat) : ∀ b : Nat, (extended_gcd a b).1 = Nat.gcd a b := by
  induction a using Nat.strong_induction_on with
  | _ a ih =>
    intro b
    rw [extended_gcd]
    by_cases h : a = 0
    · subst h; simp
    · simp only [if_neg h]
      rw [ih (b % a) (Nat.mod_lt _ (Nat.pos_of_ne_zero h)) a]
      exact (Nat.gcd_rec a b).symm

theorem extended_gcd_bezout (a : Nat) : ∀ b : Nat,
    (a : Int) * (extended_gcd a b).2.1 + (b : Int) * (extended_gcd a b).2.2
      = ((extended_gcd a b).1 : Int) := by
  induction a using Nat.strong_induction_on with
  | _ a ih =>
    intro b
    rw [extended_gcd]
    by_cases h : a = 0
    · subst h; simp
    · simp only [if_neg h]
      have H := ih (b % a) (Nat.mod_lt _ (Nat.pos_of_ne_zero h)) a
      have hrel := Int.ediv_add_emod (b : Int) (a : Int)
      push_cast at H ⊢
      linear_combination H - (extended_gcd (b % a) a).2.1 * hrel

theorem mod_inverse_ok {num mod : Nat} (hm : 1 < mod) (hc : Nat.gcd num mod = 1) :
    ∃ b : Nat, mod_inverse num mod = .ok b ∧ b < mod ∧ (num * b) % mod = 1 ∧
      (num : ZMod mod) * (b : ZMod mod) = 1 := by
  haveI : NeZero mod := ⟨by omega⟩
  have hmz : (0 : Int) < (mod : Int) := by exact_mod_cast (by omega : 0 < mod)
  have h1 : (extended_gcd num mod).1 = 1 := by rw [extended_gcd_gcd]; exact hc
  have hbez : (num : Int) * (extended_gcd num mod).2.1
      + (mod : Int) * (extended_gcd num mod).2.2 = 1 := by
    have h := extended_gcd_bezout num mod
    rw [h1] at h; exact_mod_cast h
  set x := (extended_gcd num mod).2.1 with hx
  set bInt : Int := (x % (mod : Int) + (mod : Int)) % (mod : Int) with hb
  have hb0 : 0 ≤ bInt := Int.emod_nonneg _ hmz.ne'
  have hblt : bInt < (mod : Int) := Int.emod_lt_of_pos _ hmz
  have hcast : ((bInt.toNat : Nat) : ZMod mod) = ((x : Int) : ZMod mod) := by
    have h' : ((bInt.toNat : Nat) : Int) = bInt := Int.toNat_of_nonneg hb0
    calc ((bInt.toNat : Nat) : ZMod mod) = ((bInt.toNat : Int) : ZMod mod) :=
          (Int.cast_natCast _).symm
    _ = (bInt : ZMod mod) := by rw [h']
    _ = ((x : Int) : ZMod mod) := by
        rw [hb, ZMod.intCast_eq_intCast_iff']
        simp [Int.emod_emod_of_dvd, Int.add_mul_emod_self_left]
  have hmul : (num : ZMod mod) * ((bInt.toNat : Nat) : ZMod mod) = 1 := by
    have h := congrArg (fun t : Int => (t : ZMod mod)) hbez
    push_cast at h
    rw [ZMod.natCast_self] at h
    rw [hcast]
    linear_combination h
  refine ⟨bInt.toNat, ?_, by omega, ?_, hmul⟩
  · simp [mod_inverse, h1, ← hx, ← hb]
  · have h2 : ((num * bInt.toNat : Nat) : ZMod mod) = 1 := by push_cast; exact hmul
    have h3 := congrArg ZMod.val h2
    rw [ZMod.val_natCast] at h3
    haveI : Fact (1 < mod) := ⟨hm⟩
    rw [ZMod.val_one] at h3
    exact h3

theorem mod_inverse_one : mod_inverse 1 257 = .ok 1 := by
  simp [mod_inverse, extended_gcd]

theorem mod_inverse_zero : mod_inverse 0 257 = .error "Modular inverse does not exist" := by
  simp [mod_inverse, extended_gcd]

/-- Recombination from a single share `(x, y)` computes `(0 + y * ((1 * 1) % 257)) % 257`. -/
theorem recover_single (x y : Int) : recover_secret [(x, y)] PRIME = .ok (y % 257) := by
  simp [recover_secret, lagrange_interpolation, lagrange_step, lagrange_numden, PRIME,
    List.enum, List.enumFrom, List.foldlM_cons, List.foldlM_nil, mod_inverse_one]

/-! ### Claim theorems -/

/-- C2: encoding the triple `(256, 256, 0)` per `create_preview_image` and decoding
it per `shares_to_image` does NOT return the original triple: the branch of
`create_preview_image` meant for "R and G were 256" tests the R flag twice
(`marker_array[y, x, 0] == 0` instead of `marker_array[y, x, 2] == 0`), an
unsatisfiable condition, so the pixel is emitted with the default marker `254`
and decodes to `(255, 255, 0)`.  This contradicts the source's own comment
`# R and G` on that branch and the required codec bijectivity. -/
theorem encode_decode_rg_both_256_lost :
    encode_pixel 256 256 0 = (255, 255, 0, 254) ∧
    (decode_pixel (encode_pixel 256 256 0).1 (encode_pixel 256 256 0).2.1
      (encode_pixel 256 256 0).2.2.1 (encode_pixel 256 256 0).2.2.2) = (255, 255, 0) := by
  decide

/-- C3 counterexample: `split_secret` with `threshold = 1 < 2` (and
`num_shares = 2`) is accepted and produces shares, contrary to the claim that
`T < 2` is rejected with an error.  (`threshold - 1 = 0` random coefficients
are drawn, so `rnd = []` covers every possible draw.) -/
theorem split_secret_threshold_one_accepted :
    split_secret 5 1 2 [] PRIME = .ok [(1, 5), (2, 5)] := rfl

/-- C3 (amended): the only parameter validation `split_secret` performs on
`(threshold, num_shares)` is `threshold > num_shares`, which is rejected with a
`ValueError` before any share is produced; `T < 2` and `N < 2` by themselves
are not rejected. -/
theorem split_secret_rejects_threshold_gt_shares (secret threshold num_shares : Nat)
    (rnd : List Nat) (prime : Nat) (h : threshold > num_shares) :
    split_secret secret threshold num_shares rnd prime
      = .error "Threshold cannot be greater than the number of shares" := by
  simp [split_secret, h]

/-- Witness for `split_secret_rejects_threshold_gt_shares` at the spec's own
example `split(100, T=5, N=3)`. -/
theorem split_secret_rejects_witness :
    5 > 3 ∧ split_secret 100 5 3 [] PRIME
      = .error "Threshold cannot be greater than the number of shares" :=
  ⟨by decide, split_secret_rejects_threshold_gt_shares 100 5 3 [] PRIME (by decide)⟩

/-- C4 counterexample: a successfully recombined channel value of `256` is
written as `0`, not `255`: `min(255, 256 % 256) = 0`.  Concretely, a single
share image whose stored pixel is `(255, 5, 7)` with alpha marker `255`
(R was 256) decodes to `r = 256`, recombines to `256`, and is emitted as `0`. -/
theorem recombined_256_written_as_zero :
    recover_secret [((1 : Int), 256)] PRIME = .ok 256 ∧
    shares_to_image [(1, [(255, 5, 7, 255)])] 1 1 = .ok [(0, 5, 7)] := by
  constructor
  · simpa using recover_single 1 256
  · simp [shares_to_image, decode_share_data, decode_pixel, gather_pixel,
      reconstruct_pixel, channel_shares, recover_single, clamp_channel, List.range_succ]

/-- C4 (amended): every successfully recombined channel value `v ∈ [0, 256]`
is written as `min(255, v % 256)`: the emitted byte equals `v` when `v ≤ 255`
and equals `0` (not `255`) when `v = 256`. -/
theorem clamp_channel_spec (v : Int) (h0 : 0 ≤ v) (h1 : v ≤ 256) :
    clamp_channel v = if v ≤ 255 then v else 0 := by
  simp only [clamp_channel, min_def]
  split <;> split <;> omega

/-- Witness for `clamp_channel_spec` at `v = 256`. -/
theorem clamp_channel_spec_witness :
    clamp_channel 256 = if (256 : Int) ≤ 255 then 256 else 0 :=
  clamp_channel_spec 256 (by decide) (by decide)

set_option maxRecDepth 4000 in
/-- C5: recombination from shares with a duplicate x coordinate fails with the
domain error raised by `mod_inverse` (the Lagrange denominator
`(2 - 2) % 257 = 0` has no modular inverse), rather than returning a value. -/
theorem recover_secret_duplicate_x_error :
    recover_secret [((2 : Int), 10), (2, 20)] PRIME
      = .error "Modular inverse does not exist" := by
  simp [recover_secret, lagrange_interpolation, lagrange_step, lagrange_numden, PRIME,
    List.enum, List.enumFrom, List.foldlM_cons, List.foldlM_nil, mod_inverse_zero]
  rfl

/-- C6: for every `a ∈ [0, 256]`, `mod_inverse a 257` either returns
`b ∈ [0, 256]` with `a * b ≡ 1 (mod 257)` (exactly when `1 ≤ a`) or fails with
the domain error (exactly when `a = 0`). -/
theorem mod_inverse_field_spec (a : Nat) (ha : a ≤ 256) :
    (1 ≤ a → ∃ b, mod_inverse a 257 = .ok b ∧ b ≤ 256 ∧ (a * b) % 257 = 1) ∧
    (a = 0 → mod_inverse a 257 = .error "Modular inverse does not exist") := by
  constructor
  · intro h1
    have hgcd : Nat.gcd a 257 = 1 := by
      have hp : Nat.Prime 257 := by norm_num
      have hnd : ¬ (257 ∣ a) := by
        intro hdvd
        have := Nat.le_of_dvd (by omega) hdvd
        omega
      exact Nat.Coprime.gcd_eq_one (((Nat.Prime.coprime_iff_not_dvd hp).mpr hnd).symm)
    obtain ⟨b, hok, hlt, hmod, _⟩ := mod_inverse_ok (by norm_num) hgcd
    exact ⟨b, hok, by omega, hmod⟩
  · intro h0; subst h0; exact mod_inverse_zero

/-- Witness for `mod_inverse_field_spec` at `a = 3`. -/
theorem mod_inverse_field_spec_witness :
    ∃ b, mod_inverse 3 257 = .ok b ∧ b ≤ 256 ∧ (3 * b) % 257 = 1 :=
  (mod_inverse_field_spec 3 (by decide)).1 (by decide)

/-- C8 (amended): `shares_to_image` rejects only an empty share list
(`if not shares`), producing the `No shares provided` error before any pixel
processing. -/
theorem shares_to_image_rejects_empty (height width : Nat) :
    shares_to_image [] height width = .error "No shares provided" := by
  simp [shares_to_image]

/-- C8 counterexample: a single-element share list is accepted and processed
(a lone share of index 1 with decoded pixel `(5, 6, 7)` reconstructs to the
image `[(5, 6, 7)]`), contrary to the claim that fewer than 2 share images are
rejected with an error. -/
theorem single_share_accepted :
    shares_to_image [(1, [(5, 6, 7, 254)])] 1 1 = .ok [(5, 6, 7)] := by
  simp [shares_to_image, decode_share_data, decode_pixel, gather_pixel,
    reconstruct_pixel, channel_shares, recover_single, clamp_channel, List.range_succ]

/-- C10: recombination from a single share `(x, y)` succeeds for every pair and
returns `y % 257`: the inner Lagrange loops are empty, so the basis coefficient
is `1` and the lone stored value is returned as the recovered secret. -/
theorem recover_secret_single_share (x y : Int) :
    recover_secret [(x, y)] PRIME = .ok (y % 257) :=
  recover_single x y

/-! ### The progress reports of `image_to_shares` (claim C9) -/

theorem progress_fold_closed (total : Nat) (n : Nat) :
    (List.range n).foldl
      (fun (acc : Nat × List ℚ) _ =>
        let processed := acc.1 + 1
        if processed % 100 = 0 then (processed, acc.2 ++ [(processed : ℚ) / (total : ℚ)])
        else (processed, acc.2))
      ((0 : Nat), ([] : List ℚ))
      = (n, (List.range n).filterMap fun k =>
          if (k + 1) % 100 = 0 then some (((k + 1 : Nat) : ℚ) / ((total : Nat) : ℚ))
          else none) := by
  induction n with
  | zero => rfl
  | succ n ih =>
      rw [List.range_succ, List.foldl_append, ih, List.filterMap_append]
      by_cases hc : (n + 1) % 100 = 0 <;> simp [hc]

theorem image_to_shares_progress_eq (height width : Nat) :
    image_to_shares_progress height width
      = ((List.range (height * width)).filterMap fun k =>
          if (k + 1) % 100 = 0
          then some (((k + 1 : Nat) : ℚ) / ((height * width : Nat) : ℚ)) else none)
        ++ [1] := by
  simp only [image_to_shares_progress]
  rw [progress_fold_closed]

theorem progress_mem (height width : Nat) (q : ℚ)
    (hq : q ∈ image_to_shares_progress height width) : 0 ≤ q ∧ q ≤ 1 := by
  rw [image_to_shares_progress_eq] at hq
  rcases List.mem_append.mp hq with hq | hq
  · obtain ⟨k, hk, hf⟩ := List.mem_filterMap.mp hq
    by_cases hc : (k + 1) % 100 = 0
    · rw [if_pos hc] at hf
      obtain rfl : (((k + 1 : Nat) : ℚ) / ((height * width : Nat) : ℚ)) = q :=
        Option.some.inj hf
      have hkr := List.mem_range.mp hk
      have htp : (0 : ℚ) < ((height * width : Nat) : ℚ) := by
        exact_mod_cast (by omega : 0 < height * width)
      constructor
      · exact div_nonneg (by positivity) htp.le
      · rw [div_le_one htp]
        exact_mod_cast (by omega : k + 1 ≤ height * width)
    · rw [if_neg hc] at hf; exact absurd hf (by simp)
  · rcases List.mem_singleton.mp hq with rfl
    exact ⟨by norm_num, le_refl 1⟩

/-- C9: the sequence of progress fractions reported by `image_to_shares` (for
any image dimensions, hence any input image, and any supplied callback) is
monotonically non-decreasing, every reported value lies in `[0, 1]`, and the
final reported value is exactly `1`. -/
theorem image_to_shares_progress_spec (height width : Nat) :
    (image_to_shares_progress height width).Pairwise (· ≤ ·) ∧
    (∀ q ∈ image_to_shares_progress height width, 0 ≤ q ∧ q ≤ 1) ∧
    (image_to_shares_progress height width).getLast? = some 1 := by
  refine ⟨?_, fun q hq => progress_mem height width q hq, ?_⟩
  · rw [image_to_shares_progress_eq]
    rw [List.pairwise_append]
    refine ⟨?_, by simp, ?_⟩
    · refine List.Pairwise.filterMap _ ?_ (List.pairwise_lt_range (height * width))
      intro a a' hlt b hb b' hb'
      by_cases hc : (a + 1) % 100 = 0
      · rw [if_pos hc] at hb
        by_cases hc' : (a' + 1) % 100 = 0
        · rw [if_pos hc'] at hb'
          obtain rfl := Option.some.inj hb
          obtain rfl := Option.some.inj hb'
          exact div_le_div_of_nonneg_right
            (by exact_mod_cast (by omega : a + 1 ≤ a' + 1)) (by positivity)
        · rw [if_neg hc'] at hb'; exact absurd hb' (by simp)
      · rw [if_neg hc] at hb; exact absurd hb (by simp)
    · intro a ha b hb
      rcases List.mem_singleton.mp hb with rfl
      exact (progress_mem height width a (by
        rw [image_to_shares_progress_eq]; exact List.mem_append_left _ ha)).2
  · rw [image_to_shares_progress_eq]
    exact List.getLast?_concat _

/-! ### Per-pixel failure isolation in `shares_to_image` (claim C7) -/

theorem reconstruct_pixel_error (ps : List (Int × (Nat × Nat × Nat)))
    (h : (∃ e, recover_secret (channel_shares ps).1 PRIME = .error e)
       ∨ (∃ e, recover_secret (channel_shares ps).2.1 PRIME = .error e)
       ∨ (∃ e, recover_secret (channel_shares ps).2.2 PRIME = .error e)) :
    reconstruct_pixel ps = (0, 0, 0) := by
  unfold reconstruct_pixel
  rcases h with ⟨e, he⟩ | ⟨e, he⟩ | ⟨e, he⟩ <;> rw [he] <;>
    cases recover_secret (channel_shares ps).1 PRIME <;>
    cases recover_secret (channel_shares ps).2.1 PRIME <;>
    cases recover_secret (channel_shares ps).2.2 PRIME <;> rfl

/-- C7: if recombination of any channel of the pixel at position `k` raises an
error, `shares_to_image` still succeeds on the whole image, writes pixel `k` as
black `(0, 0, 0)`, and reconstructs every pixel position (in particular every
other one) by the normal per-pixel recombination. -/
theorem shares_to_image_pixel_failure_isolated
    (shares : List (Int × List (Nat × Nat × Nat × Nat))) (height width k : Nat)
    (hne : shares ≠ []) (hk : k < height * width)
    (hfail : (∃ e, recover_secret
          (channel_shares (gather_pixel (decode_share_data shares) k)).1 PRIME = .error e)
      ∨ (∃ e, recover_secret
          (channel_shares (gather_pixel (decode_share_data shares) k)).2.1 PRIME = .error e)
      ∨ (∃ e, recover_secret
          (channel_shares (gather_pixel (decode_share_data shares) k)).2.2 PRIME = .error e)) :
    ∃ img, shares_to_image shares height width = .ok img ∧
      img.length = height * width ∧
      img.getD k (0, 0, 0) = (0, 0, 0) ∧
      ∀ j, j < height * width →
        img.getD j (0, 0, 0) = reconstruct_pixel (gather_pixel (decode_share_data shares) j) := by
  refine ⟨(List.range (height * width)).map fun pixel_idx =>
      reconstruct_pixel (gather_pixel (decode_share_data shares) pixel_idx), ?_, ?_, ?_, ?_⟩
  · simp [shares_to_image, hne]
  · simp
  · have hgd : ∀ j, j < height * width →
        ((List.range (height * width)).map fun pixel_idx =>
          reconstruct_pixel (gather_pixel (decode_share_data shares) pixel_idx)).getD j (0, 0, 0)
          = reconstruct_pixel (gather_pixel (decode_share_data shares) j) := by
      intro j hj
      rw [List.getD_eq_getElem?_getD, List.getElem?_map, List.getElem?_range hj]
      rfl
    rw [hgd k hk]
    exact reconstruct_pixel_error _ hfail
  · intro j hj
    rw [List.getD_eq_getElem?_getD, List.getElem?_map, List.getElem?_range hj]
    rfl

/-- Witness for `shares_to_image_pixel_failure_isolated`: two one-pixel shares
reconstructed as a 1×2 image; pixel position 1 is beyond both pixel lists, so
its gathered share list is empty and recombination of its R channel raises the
`No shares provided` error, while pixel 0 reconstructs normally. -/
theorem shares_to_image_pixel_failure_witness :
    ∃ img, shares_to_image [(1, [(10, 20, 30, 254)]), (2, [(16, 26, 36, 254)])] 1 2 = .ok img ∧
      img.length = 1 * 2 ∧
      img.getD 1 (0, 0, 0) = (0, 0, 0) ∧
      ∀ j, j < 1 * 2 →
        img.getD j (0, 0, 0) = reconstruct_pixel (gather_pixel
          (decode_share_data [(1, [(10, 20, 30, 254)]), (2, [(16, 26, 36, 254)])]) j) :=
  shares_to_image_pixel_failure_isolated _ 1 2 1 (by simp) (by omega)
    (Or.inl ⟨"No shares provided", rfl⟩)

/-! ### Round-trip correctness of split/recover (claim C1) -/

instance fact_prime_257 : Fact (Nat.Prime 257) := ⟨by norm_num⟩

/-- The polynomial with coefficient list `cs` (constant term first), the
mathematical object built by `split_secret` from `[secret] + random
coefficients`.  Proof-side only; the executable embedding of the code is
`evaluate_polynomial`. -/
noncomputable def polyOfList {R : Type} [CommRing R] (cs : List R) : Polynomial R :=
  cs.foldr (fun c q => Polynomial.C c + Polynomial.X * q) 0

theorem polyOfList_nil {R : Type} [CommRing R] : polyOfList ([] : List R) = 0 := rfl

theorem polyOfList_cons {R : Type} [CommRing R] (c : R) (t : List R) :
    polyOfList (c :: t) = Polynomial.C c + Polynomial.X * polyOfList t := rfl

theorem polyOfList_eval_zero {R : Type} [CommRing R] (c : R) (t : List R) :
    (polyOfList (c :: t)).eval 0 = c := by
  simp [polyOfList_cons]

theorem polyOfList_degree {F : Type} [Field F] (cs : List F) :
    (polyOfList cs).degree < (cs.length : ℕ) := by
  induction cs with
  | nil =>
      simp [polyOfList_nil, Polynomial.degree_zero]
  | cons c t ih =>
      rw [polyOfList_cons, List.length_cons]
      apply lt_of_le_of_lt (Polynomial.degree_add_le _ _)
      rw [max_lt_iff]
      constructor
      · apply lt_of_le_of_lt Polynomial.degree_C_le
        exact_mod_cast WithBot.coe_lt_coe.mpr (Nat.succ_pos t.length)
      · rw [Polynomial.degree_mul, Polynomial.degree_X]
        calc (1 : WithBot ℕ) + (polyOfList t).degree < 1 + (t.length : ℕ) := by
              apply WithBot.add_lt_add_left (by simp) ih
        _ = ((t.length + 1 : ℕ) : WithBot ℕ) := by
              push_cast; ring

theorem intCast_emod_257 (a : Int) : ((a % (257 : Int) : Int) : ZMod 257) = (a : ZMod 257) := by
  have h : ((257 : Nat) : Int) = (257 : Int) := by norm_num
  rw [ZMod.intCast_eq_intCast_iff']
  rw [h, Int.emod_emod_of_dvd a dvd_rfl]

theorem evaluate_polynomial_cast (cs : List Nat) (x : Nat) :
    ((evaluate_polynomial cs x 257 : Nat) : ZMod 257)
      = (polyOfList (List.map (Nat.cast : Nat → ZMod 257) cs)).eval (x : ZMod 257) := by
  unfold evaluate_polynomial
  rw [List.foldl_reverse]
  induction cs with
  | nil => simp [polyOfList_nil]
  | cons c t ih =>
      simp only [List.foldr_cons, List.map_cons, polyOfList_cons, ZMod.natCast_mod,
        Nat.cast_add, Nat.cast_mul, Polynomial.eval_add, Polynomial.eval_mul,
        Polynomial.eval_C, Polynomial.eval_X]
      rw [ih]
      ring

theorem enum_map_sum {α M : Type} [AddCommMonoid M] (l : List α) (F : Nat × α → M) (d : α) :
    (l.enum.map F).sum = ∑ j in Finset.range l.length, F (j, l.getD j d) := by
  induction l using List.reverseRecOn with
  | nil => simp
  | append_singleton xs a ih =>
      rw [List.enum_append, List.map_append, List.sum_append, ih]
      simp only [List.enumFrom, List.map_cons, List.map_nil, List.sum_cons, List.sum_nil,
        List.length_append, List.length_singleton]
      rw [Finset.sum_range_succ]
      congr 1
      · apply Finset.sum_congr rfl
        intro j hj
        rw [List.getD_append _ _ _ _ (List.mem_range.mp hj)]
      · rw [List.getD_append_right _ _ _ _ (le_refl xs.length)]
        simp

theorem prod_range_ite_one {M : Type} [CommMonoid M] (n j : Nat) (hj : j < n) (G : Nat → M) :
    (∏ m in Finset.range n, if m = j then 1 else G m)
      = ∏ m in (Finset.range n).erase j, G m := by
  have hmem : j ∈ Finset.range n := Finset.mem_range.mpr hj
  conv_lhs => rw [← Finset.insert_erase hmem]
  rw [Finset.prod_insert (Finset.not_mem_erase _ _), if_pos rfl, one_mul]
  apply Finset.prod_congr rfl
  intro m hm
  exact if_neg (Finset.mem_erase.mp hm).1

theorem lagrange_numden_step (xs : List Int) (c : Int) (i : Nat) (x_i : Int) :
    lagrange_numden (xs ++ [c]) i x_i 257
      = (if i ≠ xs.length then
          (((lagrange_numden xs i x_i 257).1 * (0 - c)) % ((257 : Nat) : Int),
           ((lagrange_numden xs i x_i 257).2 * (x_i - c)) % ((257 : Nat) : Int))
        else lagrange_numden xs i x_i 257) := by
  unfold lagrange_numden
  rw [List.enum_append, List.foldl_append]
  simp only [List.enumFrom, List.foldl_cons, List.foldl_nil]

theorem lagrange_numden_spec (xs : List Int) (i : Nat) (x_i : Int) :
    (0 ≤ (lagrange_numden xs i x_i 257).1 ∧ (lagrange_numden xs i x_i 257).1 < 257 ∧
     0 ≤ (lagrange_numden xs i x_i 257).2 ∧ (lagrange_numden xs i x_i 257).2 < 257) ∧
    (((lagrange_numden xs i x_i 257).1 : Int) : ZMod 257)
       = (∏ j in Finset.range xs.length,
           if j = i then 1 else (0 - ((xs.getD j 0 : Int) : ZMod 257))) ∧
    (((lagrange_numden xs i x_i 257).2 : Int) : ZMod 257)
       = (∏ j in Finset.range xs.length,
           if j = i then 1 else ((x_i : ZMod 257) - ((xs.getD j 0 : Int) : ZMod 257))) := by
  induction xs using List.reverseRecOn with
  | nil =>
      constructor
      · constructor
        · norm_num [lagrange_numden]
        · norm_num [lagrange_numden]
      · constructor <;> simp [lagrange_numden]
  | append_singleton xs c ih =>
      obtain ⟨⟨hn0, hn1, hd0, hd1⟩, hnum, hden⟩ := ih
      rw [lagrange_numden_step]
      have hlen : (xs ++ [c]).length = xs.length + 1 := by simp
      have hgetlt : ∀ j ∈ Finset.range xs.length, (xs ++ [c]).getD j 0 = xs.getD j 0 :=
        fun j hj => List.getD_append _ _ _ _ (Finset.mem_range.mp hj)
      have hgetn : (xs ++ [c]).getD xs.length 0 = c := by
        rw [List.getD_append_right _ _ _ _ (le_refl xs.length)]; simp
      have hprodnum : (∏ j in Finset.range (xs ++ [c]).length,
            if j = i then 1 else (0 - (((xs ++ [c]).getD j 0 : Int) : ZMod 257)))
          = (∏ j in Finset.range xs.length,
              if j = i then 1 else (0 - ((xs.getD j 0 : Int) : ZMod 257)))
            * (if xs.length = i then 1 else (0 - ((c : Int) : ZMod 257))) := by
        rw [hlen, Finset.prod_range_succ, hgetn]
        congr 1
        apply Finset.prod_congr rfl
        intro j hj
        rw [hgetlt j hj]
      have hprodden : (∏ j in Finset.range (xs ++ [c]).length,
            if j = i then 1 else ((x_i : ZMod 257) - (((xs ++ [c]).getD j 0 : Int) : ZMod 257)))
          = (∏ j in Finset.range xs.length,
              if j = i then 1 else ((x_i : ZMod 257) - ((xs.getD j 0 : Int) : ZMod 257)))
            * (if xs.length = i then 1 else ((x_i : ZMod 257) - ((c : Int) : ZMod 257))) := by
        rw [hlen, Finset.prod_range_succ, hgetn]
        congr 1
        apply Finset.prod_congr rfl
        intro j hj
        rw [hgetlt j hj]
      by_cases h : i = xs.length
      · rw [if_neg (by simpa using h)]
        refine ⟨⟨hn0, hn1, hd0, hd1⟩, ?_, ?_⟩
        · rw [hprodnum, if_pos h.symm, mul_one]; exact hnum
        · rw [hprodden, if_pos h.symm, mul_one]; exact hden
      · rw [if_pos (by simpa using h)]
        have hc257 : ((257 : Nat) : Int) = (257 : Int) := by norm_num
        refine ⟨⟨?_, ?_, ?_, ?_⟩, ?_, ?_⟩
        · exact Int.emod_nonneg _ (by norm_num)
        · rw [hc257]; exact Int.emod_lt_of_pos _ (by norm_num)
        · exact Int.emod_nonneg _ (by norm_num)
        · rw [hc257]; exact Int.emod_lt_of_pos _ (by norm_num)
        · show ((((lagrange_numden xs i x_i 257).1 * (0 - c)) % ((257 : Nat) : Int) : Int)
              : ZMod 257) = _
          rw [hc257, intCast_emod_257, Int.cast_mul, hnum, hprodnum,
            if_neg (fun hh => h hh.symm)]
          push_cast
          ring
        · show ((((lagrange_numden xs i x_i 257).2 * (x_i - c)) % ((257 : Nat) : Int) : Int)
              : ZMod 257) = _
          rw [hc257, intCast_emod_257, Int.cast_mul, hden, hprodden,
            if_neg (fun hh => h hh.symm)]
          push_cast
          ring

theorem lagrange_fold (xs : List Int) (L : List (Nat × (Int × Int))) :
    ∀ acc : Int, 0 ≤ acc → acc < 257 →
    (∀ e ∈ L, (((lagrange_numden xs e.1 e.2.1 257).2 : Int) : ZMod 257) ≠ 0) →
    ∃ res : Int, L.foldlM (lagrange_step xs 257) acc = .ok res
      ∧ 0 ≤ res ∧ res < 257
      ∧ (res : ZMod 257) = (acc : ZMod 257)
          + (L.map fun e => ((e.2.2 : ZMod 257)
              * ((((lagrange_numden xs e.1 e.2.1 257).1 : Int) : ZMod 257)
                 * ((((lagrange_numden xs e.1 e.2.1 257).2 : Int) : ZMod 257))⁻¹))).sum := by
  induction L with
  | nil =>
      intro acc h0 h1 _
      exact ⟨acc, rfl, h0, h1, by simp⟩
  | cons e t ih =>
      intro acc h0 h1 hL
      obtain ⟨⟨hn0, hn1, hd0, hd1⟩, hnum, hden⟩ := lagrange_numden_spec xs e.1 e.2.1
      have hz := hL e (List.mem_cons_self e t)
      have hdnz : (lagrange_numden xs e.1 e.2.1 257).2.toNat ≠ 0 := by
        intro h
        apply hz
        have hzero : (lagrange_numden xs e.1 e.2.1 257).2 = 0 := by omega
        rw [hzero]
        simp
      have hdlt : (lagrange_numden xs e.1 e.2.1 257).2.toNat < 257 := by omega
      have hgcd : Nat.gcd (lagrange_numden xs e.1 e.2.1 257).2.toNat 257 = 1 := by
        have hp : Nat.Prime 257 := by norm_num
        have hnd : ¬ (257 ∣ (lagrange_numden xs e.1 e.2.1 257).2.toNat) := by
          intro hdvd
          have := Nat.le_of_dvd (Nat.pos_of_ne_zero hdnz) hdvd
          omega
        exact Nat.Coprime.gcd_eq_one (((Nat.Prime.coprime_iff_not_dvd hp).mpr hnd).symm)
      obtain ⟨b, hok, hblt, hbmod, hbmul⟩ := mod_inverse_ok (by norm_num) hgcd
      have hdcast : (((lagrange_numden xs e.1 e.2.1 257).2.toNat : Nat) : ZMod 257)
          = (((lagrange_numden xs e.1 e.2.1 257).2 : Int) : ZMod 257) := by
        conv_rhs => rw [← Int.toNat_of_nonneg hd0]
        exact (Int.cast_natCast _).symm
      have hbinv : ((b : Nat) : ZMod 257)
          = ((((lagrange_numden xs e.1 e.2.1 257).2 : Int) : ZMod 257))⁻¹ := by
        rw [← hdcast]
        exact (inv_eq_of_mul_eq_one_right hbmul).symm
      have hstep : lagrange_step xs 257 acc e
          = .ok ((acc + e.2.2 * (((lagrange_numden xs e.1 e.2.1 257).1 * (b : Int))
              % ((257 : Nat) : Int))) % ((257 : Nat) : Int)) := by
        simp only [lagrange_step, hok]
      have hc257 : ((257 : Nat) : Int) = (257 : Int) := by norm_num
      set acc' : Int := (acc + e.2.2 * (((lagrange_numden xs e.1 e.2.1 257).1 * (b : Int))
          % ((257 : Nat) : Int))) % ((257 : Nat) : Int) with hacc'
      have ha0 : 0 ≤ acc' := Int.emod_nonneg _ (by rw [hc257]; norm_num)
      have ha1 : acc' < 257 := by
        have := Int.emod_lt_of_pos (acc + e.2.2 * (((lagrange_numden xs e.1 e.2.1 257).1
          * (b : Int)) % ((257 : Nat) : Int)))
          (show (0 : Int) < ((257 : Nat) : Int) by rw [hc257]; norm_num)
        omega
      have hacast : (acc' : ZMod 257) = (acc : ZMod 257)
          + ((e.2.2 : ZMod 257)
              * ((((lagrange_numden xs e.1 e.2.1 257).1 : Int) : ZMod 257)
                 * ((((lagrange_numden xs e.1 e.2.1 257).2 : Int) : ZMod 257))⁻¹)) := by
        rw [hacc', hc257, intCast_emod_257, Int.cast_add, Int.cast_mul, intCast_emod_257,
          Int.cast_mul, Int.cast_natCast, hbinv]
      obtain ⟨res, hres, hr0, hr1, hrcast⟩ :=
        ih acc' ha0 ha1 (fun e' he' => hL e' (List.mem_cons_of_mem e he'))
      refine ⟨res, ?_, hr0, hr1, ?_⟩
      · rw [List.foldlM_cons, hstep]
        exact hres
      · rw [hrcast, hacast, List.map_cons, List.sum_cons]
        ring

theorem lagrange_sum_eq_secret (secret : Nat) (rest : List Nat) (sub : List (Nat × Nat))
    (hlen : sub.length = rest.length + 1)
    (hx : ∀ j, j < sub.length → (sub.getD j (0, 0)).1 < 257)
    (hy : ∀ j, j < sub.length → (sub.getD j (0, 0)).2
            = evaluate_polynomial (secret :: rest) (sub.getD j (0, 0)).1 257)
    (hinj : ∀ j m, j < sub.length → m < sub.length →
       (sub.getD j (0, 0)).1 = (sub.getD m (0, 0)).1 → j = m) :
    (∑ j in Finset.range sub.length,
      (((sub.getD j (0, 0)).2 : ZMod 257)
        * ((∏ m in Finset.range sub.length,
             if m = j then 1 else (0 - ((sub.getD m (0, 0)).1 : ZMod 257)))
           * (∏ m in Finset.range sub.length,
               if m = j then 1
               else (((sub.getD j (0, 0)).1 : ZMod 257)
                 - ((sub.getD m (0, 0)).1 : ZMod 257)))⁻¹)))
      = (secret : ZMod 257) := by
  set n := sub.length with hn
  set v : ℕ → ZMod 257 := fun j => ((sub.getD j (0, 0)).1 : ZMod 257) with hv
  set r : ℕ → ZMod 257 := fun j => ((sub.getD j (0, 0)).2 : ZMod 257) with hr
  set f : Polynomial (ZMod 257)
    := polyOfList (List.map (Nat.cast : Nat → ZMod 257) (secret :: rest)) with hf
  have hvs : Set.InjOn v ↑(Finset.range n) := by
    intro a ha b hb hab
    rw [Finset.mem_coe, Finset.mem_range] at ha hb
    apply hinj a b ha hb
    have hva := congrArg ZMod.val hab
    rw [hv] at hva
    simp only [ZMod.val_natCast] at hva
    rw [Nat.mod_eq_of_lt (hx a ha), Nat.mod_eq_of_lt (hx b hb)] at hva
    exact hva
  have heval : ∀ j ∈ Finset.range n, f.eval (v j) = r j := by
    intro j hj
    rw [Finset.mem_range] at hj
    rw [hr, hf, hv]
    simp only
    rw [hy j hj, evaluate_polynomial_cast]
  have hdeg : f.degree < (Finset.range n).card := by
    rw [Finset.card_range, hf]
    have := polyOfList_degree (List.map (Nat.cast : Nat → ZMod 257) (secret :: rest))
    rwa [List.length_map, List.length_cons, ← hlen] at this
  have hinterp := Lagrange.eq_interpolate hvs hdeg
  have heval0 := congrArg (Polynomial.eval (0 : ZMod 257)) hinterp
  rw [Lagrange.interpolate_apply, Polynomial.eval_finset_sum] at heval0
  have hlhs : f.eval 0 = (secret : ZMod 257) := by
    rw [hf, List.map_cons]
    exact polyOfList_eval_zero _ _
  rw [hlhs] at heval0
  rw [heval0]
  apply Finset.sum_congr rfl
  intro j hj
  have hjn : j < n := Finset.mem_range.mp hj
  rw [Polynomial.eval_mul, Polynomial.eval_C]
  rw [heval j hj]
  congr 1
  rw [Lagrange.basis, Polynomial.eval_prod]
  rw [prod_range_ite_one n j hjn, prod_range_ite_one n j hjn, ← Finset.prod_inv_distrib,
    ← Finset.prod_mul_distrib]
  apply Finset.prod_congr rfl
  intro m hm
  rw [Lagrange.basisDivisor]
  simp only [Polynomial.eval_mul, Polynomial.eval_C, Polynomial.eval_sub, Polynomial.eval_X]
  ring

/-- C1: for every secret `s ∈ [0, 256]`, thresholds `2 ≤ T ≤ N ≤ 10`, every
sequence of random nonzero coefficients the splitter can draw, and every
`T`-element subset `sub` of the `N` shares produced by `split_secret`,
recombination returns exactly `s`. -/
theorem split_recover_roundtrip
    (s T N : Nat) (rnd : List Nat) (shares sub : List (Nat × Nat))
    (hT2 : 2 ≤ T) (hTN : T ≤ N) (hN : N ≤ 10) (hs : s ≤ 256)
    (hrlen : rnd.length = T - 1) (hrval : ∀ c ∈ rnd, 1 ≤ c ∧ c ≤ 256)
    (hsplit : split_secret s T N rnd PRIME = .ok shares)
    (hsub : ∀ p ∈ sub, p ∈ shares) (hnodup : sub.Nodup) (hlen : sub.length = T) :
    recover_secret (sub.map fun p => ((p.1 : Int), (p.2 : Int))) PRIME = .ok (s : Int) := by
  -- The concrete form of the produced share list.
  have hshares : shares
      = (List.range N).map fun i => (i + 1, evaluate_polynomial (s :: rnd) (i + 1) 257) := by
    have h := hsplit
    simp only [split_secret, PRIME] at h
    rw [if_neg (by omega), if_neg (not_not.mpr (by omega))] at h
    exact (Except.ok.inj h).symm
  have hmem : ∀ p ∈ shares, 1 ≤ p.1 ∧ p.1 ≤ N
      ∧ p.2 = evaluate_polynomial (s :: rnd) p.1 257 := by
    intro p hp
    rw [hshares] at hp
    obtain ⟨i, hi, rfl⟩ := List.mem_map.mp hp
    have := List.mem_range.mp hi
    exact ⟨by omega, by omega, rfl⟩
  have hxdet : ∀ p ∈ shares, ∀ q ∈ shares, p.1 = q.1 → p = q := by
    intro p hp q hq hpq
    rw [hshares] at hp hq
    obtain ⟨i, _, rfl⟩ := List.mem_map.mp hp
    obtain ⟨i', _, rfl⟩ := List.mem_map.mp hq
    simp only at hpq
    have : i = i' := by omega
    rw [this]
  -- Shapes and lengths.
  set subZ : List (Int × Int) := sub.map fun p => ((p.1 : Int), (p.2 : Int)) with hsubZ
  set xs : List Int := subZ.map Prod.fst with hxs
  have hsubZlen : subZ.length = sub.length := by rw [hsubZ, List.length_map]
  have hxslen : xs.length = sub.length := by rw [hxs, List.length_map, hsubZlen]
  have hne : subZ ≠ [] := by
    have : 0 < subZ.length := by omega
    exact List.ne_nil_of_length_pos this
  have hsubget : ∀ j, j < sub.length → sub.getD j (0, 0) ∈ sub := by
    intro j hj
    rw [List.getD_eq_getElem _ _ hj]
    exact List.getElem_mem hj
  have hgetsubZ : ∀ j, j < sub.length →
      subZ.getD j ((0 : Int), (0 : Int))
        = (((sub.getD j (0, 0)).1 : Int), ((sub.getD j (0, 0)).2 : Int)) := by
    intro j hj
    rw [List.getD_eq_getElem _ _ (by omega : j < subZ.length), List.getD_eq_getElem _ _ hj]
    simp only [hsubZ, List.getElem_map]
  have hgetxs : ∀ j, j < sub.length → xs.getD j 0 = ((sub.getD j (0, 0)).1 : Int) := by
    intro j hj
    rw [List.getD_eq_getElem _ _ (by omega : j < xs.length), List.getD_eq_getElem _ _ hj]
    simp only [hxs, hsubZ, List.getElem_map]
  -- The hypotheses of the interpolation identity.
  have hx : ∀ j, j < sub.length → (sub.getD j (0, 0)).1 < 257 := by
    intro j hj
    have := hmem _ (hsub _ (hsubget j hj))
    omega
  have hy : ∀ j, j < sub.length → (sub.getD j (0, 0)).2
      = evaluate_polynomial (s :: rnd) (sub.getD j (0, 0)).1 257 := by
    intro j hj
    exact (hmem _ (hsub _ (hsubget j hj))).2.2
  have hinj : ∀ j m, j < sub.length → m < sub.length →
      (sub.getD j (0, 0)).1 = (sub.getD m (0, 0)).1 → j = m := by
    intro j m hj hm hjm
    rw [List.getD_eq_getElem _ _ hj, List.getD_eq_getElem _ _ hm] at hjm
    have hpair : sub[j] = sub[m] :=
      hxdet _ (hsub _ (List.getElem_mem hj)) _ (hsub _ (List.getElem_mem hm)) hjm
    have hginj := List.nodup_iff_injective_get.mp hnodup
    have := hginj (show sub.get ⟨j, hj⟩ = sub.get ⟨m, hm⟩ by simpa using hpair)
    exact Fin.mk.inj_iff.mp this
  -- The denominators are invertible.
  have hdens : ∀ e ∈ subZ.enum,
      (((lagrange_numden xs e.1 e.2.1 257).2 : Int) : ZMod 257) ≠ 0 := by
    intro e he
    obtain ⟨j, y⟩ := e
    obtain ⟨hj, hyval⟩ := List.mem_enum he
    have hjs : j < sub.length := by omega
    have hyget : y = subZ.getD j ((0 : Int), (0 : Int)) :=
      hyval.trans (List.getD_eq_getElem _ _ hj).symm
    rw [(lagrange_numden_spec xs j y.1).2.2]
    rw [Finset.prod_ne_zero_iff]
    intro m hm
    rw [Finset.mem_range, hxslen] at hm
    by_cases hmj : m = j
    · rw [if_pos hmj]; exact one_ne_zero
    · rw [if_neg hmj]
      rw [hgetxs m hm, Int.cast_natCast, hyget, hgetsubZ j hjs]
      simp only [Int.cast_natCast]
      intro hzero
      apply hmj
      apply hinj m j hm hjs
      have hdiff := sub_eq_zero.mp hzero
      have hva := congrArg ZMod.val hdiff
      simp only [ZMod.val_natCast] at hva
      rw [Nat.mod_eq_of_lt (hx j hjs), Nat.mod_eq_of_lt (hx m hm)] at hva
      omega
  -- Run the fold.
  obtain ⟨res, hres, hr0, hr1, hrcast⟩ :=
    lagrange_fold xs subZ.enum 0 (by norm_num) (by norm_num) hdens
  -- Identify the accumulated sum with the interpolation sum.
  have hsum := lagrange_sum_eq_secret s rnd sub (by omega) hx hy hinj
  have hrs : (res : ZMod 257) = (s : ZMod 257) := by
    rw [hrcast, Int.cast_zero, zero_add]
    rw [enum_map_sum subZ _ ((0 : Int), (0 : Int)), hsubZlen]
    rw [← hsum]
    apply Finset.sum_congr rfl
    intro j hj
    have hjs : j < sub.length := Finset.mem_range.mp hj
    rw [hgetsubZ j hjs]
    simp only
    rw [(lagrange_numden_spec xs j ((sub.getD j (0, 0)).1 : Int)).2.1,
      (lagrange_numden_spec xs j ((sub.getD j (0, 0)).1 : Int)).2.2]
    rw [Int.cast_natCast, hxslen]
    congr 1
    congr 1
    · apply Finset.prod_congr rfl
      intro m hm
      have hms : m < sub.length := Finset.mem_range.mp hm
      by_cases hmj : m = j
      · rw [if_pos hmj, if_pos hmj]
      · rw [if_neg hmj, if_neg hmj, hgetxs m hms, Int.cast_natCast]
    · congr 1
      apply Finset.prod_congr rfl
      intro m hm
      have hms : m < sub.length := Finset.mem_range.mp hm
      by_cases hmj : m = j
      · rw [if_pos hmj, if_pos hmj]
      · rw [if_neg hmj, if_neg hmj, hgetxs m hms, Int.cast_natCast, Int.cast_natCast]
  -- Convert the modular equality to an integer equality.
  have hresval : res = (s : Int) := by
    have h1 : ((res : Int) : ZMod 257) = (((s : Nat) : Int) : ZMod 257) := by
      rw [Int.cast_natCast]; exact hrs
    rw [ZMod.intCast_eq_intCast_iff'] at h1
    have h2 : ((257 : Nat) : Int) = (257 : Int) := by norm_num
    rw [h2] at h1
    omega
  -- Conclude.
  rw [recover_secret, lagrange_interpolation, if_neg hne,
    show PRIME = 257 from rfl]
  rw [← hxs, hres, hresval]

/-- Witness for `split_recover_roundtrip`: secret 123 split with `T = 2`,
`N = 3`, random coefficient 7, recombined from the share subset
`{(1, 130), (3, 144)}`. -/
theorem split_recover_roundtrip_witness :
    recover_secret ([((1 : Nat), (130 : Nat)), (3, 144)].map fun p => ((p.1 : Int), (p.2 : Int)))
      PRIME = .ok ((123 : Nat) : Int) :=
  split_recover_roundtrip 123 2 3 [7] [(1, 130), (2, 137), (3, 144)] [(1, 130), (3, 144)]
    (by decide) (by decide) (by decide) (by decide) (by decide) (by decide)
    (by rfl) (by decide) (by decide) (by decide)
